import Mathlib

/- Verification of the rustml dense linear-algebra layer (src/ops.rs and
src/vectors.rs): a shallow embedding of its matrix and vector operations,
with proofs of the specified properties. Floating-point scalars are
idealised as exact arithmetic in a commutative ring or field; the
sign-aware model Fl near the end additionally captures IEEE signed zero
and signed infinity for the reciprocal-of-zero edge case. Machine
integers are modelled with wrapping (release-mode) arithmetic, Fin 256
standing for u8. Operations that panic in the source are embedded as
Option-valued functions returning none on the panic path. -/

namespace Rustml

/-- Modelled from the spec: the external dense-matrix container (§3, §6) of
matrix.rs, which is not part of this snapshot — a row-major rows × cols
grid backed by one contiguous buffer, here the list `data`. -/
structure Matrix (α : Type) where
  rows : Nat
  cols : Nat
  data : List α
deriving DecidableEq

/-- Container invariant (spec §3): the buffer length equals rows * cols. -/
def Matrix.wf {α : Type} (m : Matrix α) : Prop :=
  m.data.length = m.rows * m.cols

/-- Modelled from the spec: the container's fill constructor. -/
def Matrix.fill {α : Type} (v : α) (r c : Nat) : Matrix α :=
  ⟨r, c, List.replicate (r * c) v⟩

/-- Modelled from the spec: construction from a flat buffer with given dimensions. -/
def Matrix.from_vec {α : Type} (v : List α) (r c : Nat) : Matrix α :=
  ⟨r, c, v⟩

/-- Element (i, j) of the row-major buffer (0 outside the buffer). -/
def Matrix.entry {α : Type} [Zero α] (m : Matrix α) (i j : Nat) : α :=
  m.data.getD (i * m.cols + j) 0

/-- Element (i, j) of op(m): the transpose is taken when t is true. -/
def Matrix.opEntry {α : Type} [Zero α] (m : Matrix α) (t : Bool) (i j : Nat) : α :=
  if t then m.entry j i else m.entry i j

/-- Row i of the buffer: the slice of positions [i*cols, (i+1)*cols). -/
def Matrix.rowSlice {α : Type} (m : Matrix α) (i : Nat) : List α :=
  (m.data.drop (i * m.cols)).take m.cols

/-- Writing row i back through the container's mutable row view row_mut(i). -/
def Matrix.setRow {α : Type} (m : Matrix α) (i : Nat) (r : List α) : Matrix α :=
  ⟨m.rows, m.cols, m.data.take (i * m.cols) ++ r ++ m.data.drop (i * m.cols + m.cols)⟩

/-- Translation of vectors.rs zero: a vector of n zeros. -/
def zero {α : Type} [Zero α] (n : Nat) : List α :=
  List.replicate n 0

/-- One step of the loop body of vectors.rs group: r is the accumulator and
val the current element; the source pops the last pair, pushes it back and
starts a fresh pair on a value change, and increments the count it pushes. -/
def groupStep {α : Type} [DecidableEq α] (r : List (α × Nat)) (val : α) : List (α × Nat) :=
  match r.getLast? with
  | none => [(val, 1)]
  | some x => if x.1 ≠ val then r ++ [(val, 1)] else r.dropLast ++ [(x.1, x.2 + 1)]

/-- Translation of vectors.rs group: groups equal adjacent elements into one
element with a count. -/
def group {α : Type} [DecidableEq α] (v : List α) : List (α × Nat) :=
  v.foldl groupStep []

/-- Run-length decoding: each value repeated its count, concatenated. -/
def ungroup {α : Type} (r : List (α × Nat)) : List α :=
  r.flatMap (fun p => List.replicate p.2 p.1)

/-- Translation of the scalar sigmoid of ops.rs (f32/f64 impl): the external
floating-point exponential enters as the parameter fexp. -/
def sigmoid {α : Type} [One α] [Add α] [Div α] [Neg α] (fexp : α → α) (x : α) : α :=
  1 / (1 + fexp (-x))

/-- Translation of the scalar sigmoid derivative of ops.rs. -/
def sigmoid_derivative {α : Type} [One α] [Add α] [Div α] [Neg α] [Sub α] [Mul α]
    (fexp : α → α) (x : α) : α :=
  sigmoid fexp x * (1 - sigmoid fexp x)

/-- Translation of the scalar reciprocal of ops.rs: 1 / x. -/
def recip {α : Type} [One α] [Div α] (x : α) : α :=
  1 / x

/-- Modelled from the spec: the in-place elementwise binary operations of
ops_inplace.rs (not in this snapshot) mutate the receiver pairwise with
rhs; per §7 a length mismatch is a dimension-mismatch failure (none). -/
def izipWith {α : Type} (f : α → α → α) (a rhs : List α) : Option (List α) :=
  if a.length = rhs.length then some (List.zipWith f a rhs) else none

/-- Modelled from the spec: in-place vector add of ops_inplace.rs. -/
def iadd {α : Type} [Add α] (a rhs : List α) : Option (List α) :=
  izipWith (fun x y => x + y) a rhs

/-- Modelled from the spec: in-place vector subtract of ops_inplace.rs. -/
def isub {α : Type} [Sub α] (a rhs : List α) : Option (List α) :=
  izipWith (fun x y => x - y) a rhs

/-- Modelled from the spec: in-place elementwise vector multiply of ops_inplace.rs. -/
def imul {α : Type} [Mul α] (a rhs : List α) : Option (List α) :=
  izipWith (fun x y => x * y) a rhs

/-- Modelled from the spec (§4.1): in-place vector sigmoid of ops_inplace.rs
applies the scalar function to every element. -/
def isigmoid {α : Type} [One α] [Add α] [Div α] [Neg α] (fexp : α → α) (a : List α) : List α :=
  a.map (sigmoid fexp)

/-- Modelled from the spec (§4.1): in-place vector sigmoid derivative. -/
def isigmoid_derivative {α : Type} [One α] [Add α] [Div α] [Neg α] [Sub α] [Mul α]
    (fexp : α → α) (a : List α) : List α :=
  a.map (sigmoid_derivative fexp)

/-- Modelled from the spec (§4.1): in-place vector reciprocal. -/
def irecip {α : Type} [One α] [Div α] (a : List α) : List α :=
  a.map recip

/-- Translation of Functions for Vec (ops.rs): clone, then in-place sigmoid
on the clone. -/
def Vec.sigmoid {α : Type} [One α] [Add α] [Div α] [Neg α] (fexp : α → α) (a : List α) : List α :=
  isigmoid fexp a

/-- Translation of Functions for Vec (ops.rs): clone, then in-place sigmoid
derivative on the clone. -/
def Vec.sigmoid_derivative {α : Type} [One α] [Add α] [Div α] [Neg α] [Sub α] [Mul α]
    (fexp : α → α) (a : List α) : List α :=
  isigmoid_derivative fexp a

/-- Translation of Functions for Vec (ops.rs): clone, then in-place
reciprocal on the clone. -/
def Vec.recip {α : Type} [One α] [Div α] (a : List α) : List α :=
  irecip a

/-- Modelled from the spec: in-place matrix add of ops_inplace.rs —
identical dimensions required (§4.5, §7), elementwise over the flat
row-major buffers. -/
def Matrix.iadd {α : Type} [Add α] (m rhs : Matrix α) : Option (Matrix α) :=
  if m.rows = rhs.rows ∧ m.cols = rhs.cols then
    some ⟨m.rows, m.cols, List.zipWith (fun x y => x + y) m.data rhs.data⟩
  else none

/-- Modelled from the spec: in-place matrix subtract of ops_inplace.rs. -/
def Matrix.isub {α : Type} [Sub α] (m rhs : Matrix α) : Option (Matrix α) :=
  if m.rows = rhs.rows ∧ m.cols = rhs.cols then
    some ⟨m.rows, m.cols, List.zipWith (fun x y => x - y) m.data rhs.data⟩
  else none

/-- Modelled from the spec (§4.1): in-place matrix sigmoid over the buffer. -/
def Matrix.isigmoid {α : Type} [One α] [Add α] [Div α] [Neg α] (fexp : α → α) (m : Matrix α) :
    Matrix α :=
  ⟨m.rows, m.cols, m.data.map (sigmoid fexp)⟩

/-- Modelled from the spec (§4.1): in-place matrix sigmoid derivative. -/
def Matrix.isigmoid_derivative {α : Type} [One α] [Add α] [Div α] [Neg α] [Sub α] [Mul α]
    (fexp : α → α) (m : Matrix α) : Matrix α :=
  ⟨m.rows, m.cols, m.data.map (sigmoid_derivative fexp)⟩

/-- Modelled from the spec (§4.1): in-place matrix reciprocal. -/
def Matrix.irecip {α : Type} [One α] [Div α] (m : Matrix α) : Matrix α :=
  ⟨m.rows, m.cols, m.data.map recip⟩

/-- Translation of MatrixMatrixOps add (ops.rs): clone, then in-place iadd. -/
def Matrix.add {α : Type} [Add α] (m rhs : Matrix α) : Option (Matrix α) :=
  Matrix.iadd m rhs

/-- Translation of MatrixMatrixOps sub (ops.rs): clone, then in-place isub. -/
def Matrix.sub {α : Type} [Sub α] (m rhs : Matrix α) : Option (Matrix α) :=
  Matrix.isub m rhs

/-- Translation of Functions for Matrix (ops.rs): clone, then in-place sigmoid. -/
def Matrix.sigmoid {α : Type} [One α] [Add α] [Div α] [Neg α] (fexp : α → α) (m : Matrix α) :
    Matrix α :=
  Matrix.isigmoid fexp m

/-- Translation of Functions for Matrix (ops.rs): clone, then in-place
sigmoid derivative. -/
def Matrix.sigmoid_derivative {α : Type} [One α] [Add α] [Div α] [Neg α] [Sub α] [Mul α]
    (fexp : α → α) (m : Matrix α) : Matrix α :=
  Matrix.isigmoid_derivative fexp m

/-- Translation of Functions for Matrix (ops.rs): clone, then in-place
reciprocal. -/
def Matrix.recip {α : Type} [One α] [Div α] (m : Matrix α) : Matrix α :=
  Matrix.irecip m

/-- Translation of MatrixScalarOps add_scalar (ops.rs). -/
def Matrix.add_scalar {α : Type} [Add α] (m : Matrix α) (scalar : α) : Matrix α :=
  Matrix.from_vec (m.data.map (fun x => x + scalar)) m.rows m.cols

/-- Translation of MatrixScalarOps sub_scalar (ops.rs). -/
def Matrix.sub_scalar {α : Type} [Sub α] (m : Matrix α) (scalar : α) : Matrix α :=
  Matrix.from_vec (m.data.map (fun x => x - scalar)) m.rows m.cols

/-- Translation of MatrixScalarOps mul_scalar (ops.rs). -/
def Matrix.mul_scalar {α : Type} [Mul α] (m : Matrix α) (scalar : α) : Matrix α :=
  Matrix.from_vec (m.data.map (fun x => x * scalar)) m.rows m.cols

/-- Translation of MatrixScalarOps div_scalar (ops.rs). -/
def Matrix.div_scalar {α : Type} [Div α] (m : Matrix α) (scalar : α) : Matrix α :=
  Matrix.from_vec (m.data.map (fun x => x / scalar)) m.rows m.cols

/-- Translation of VectorVectorOps sub for slices (ops.rs): pairwise zip. -/
def VectorVectorOps.sub {α : Type} [Sub α] (a v : List α) : List α :=
  List.zipWith (fun x y => x - y) a v

/-- Translation of VectorVectorOps add for slices (ops.rs): pairwise zip. -/
def VectorVectorOps.add {α : Type} [Add α] (a v : List α) : List α :=
  List.zipWith (fun x y => x + y) a v

/-- Translation of VectorVectorOps mul for slices (ops.rs): elementwise, by
pairwise zip. -/
def VectorVectorOps.mul {α : Type} [Mul α] (a v : List α) : List α :=
  List.zipWith (fun x y => x * y) a v

/-- Translation of VectorVectorOps div for slices (ops.rs): pairwise zip. -/
def VectorVectorOps.div {α : Type} [Div α] (a v : List α) : List α :=
  List.zipWith (fun x y => x / y) a v

/-- Dot product of two buffers, truncating to the shorter one; the exact
value the BLAS kernel accumulates along a row. -/
def dot {α : Type} [Mul α] [Add α] [Zero α] (a b : List α) : α :=
  (List.zipWith (fun x y => x * y) a b).sum

/-- Modelled from the spec: the external CBLAS GEMV kernel (§6) on a
row-major m × n matrix stored in the buffer a with leading dimension lda.
The no-transpose case returns the length-m vector alpha * A * x + beta * y
and the transpose case the length-n vector alpha * Aᵀ * x + beta * y. The
order argument is RowMajor and the increments are 1 at every call site of
the source, so they are elided here. -/
def cblas_dgemv {α : Type} [CommRing α] (trans : Bool) (m n : Nat) (alpha : α)
    (a : List α) (lda : Nat) (x : List α) (beta : α) (y : List α) : List α :=
  if !trans then
    (List.range m).map (fun i =>
      alpha * dot ((a.drop (i * lda)).take n) x + beta * y.getD i 0)
  else
    (List.range n).map (fun j =>
      alpha * dot ((List.range m).map (fun i => a.getD (i * lda + j) 0)) x + beta * y.getD j 0)

/-- Translation of MatrixVectorMul mul_dgemv (ops.rs): the trans-dependent
dimension check panics (none) on violation, then one CBLAS GEMV call with
m = rows, n = cols, lda = cols on the row-major buffer. -/
def Matrix.mul_dgemv {α : Type} [CommRing α] (m : Matrix α) (trans : Bool) (alpha : α)
    (x : List α) (beta : α) (y : List α) : Option (List α) :=
  if (if !trans then m.cols ≠ x.length ∨ m.rows ≠ y.length
      else m.rows ≠ x.length ∨ m.cols ≠ y.length) then none
  else some (cblas_dgemv trans m.rows m.cols alpha m.data m.cols x beta y)

/-- Translation of MatrixVectorMul mul_vec_minus_vec (ops.rs): dimension
check, then a no-transpose GEMV call with alpha = 1 and beta = -1 on a copy
of y. -/
def Matrix.mul_vec_minus_vec {α : Type} [CommRing α] (m : Matrix α) (v y : List α) :
    Option (List α) :=
  if m.cols ≠ v.length ∨ m.rows ≠ y.length then none
  else some (cblas_dgemv false m.rows m.cols 1 m.data m.cols v (-1) y)

/-- Translation of MatrixVectorMul mul_scalar_vec (ops.rs): mul_dgemv with
beta = 0 against an all-zero accumulator of the correct length. -/
def Matrix.mul_scalar_vec {α : Type} [CommRing α] (m : Matrix α) (trans : Bool) (alpha : α)
    (x : List α) : Option (List α) :=
  m.mul_dgemv trans alpha x 0 (List.replicate (if trans then m.cols else m.rows) 0)

/-- Modelled from the spec: d_gemv and s_gemv live in ops_inplace.rs, which
is not part of this snapshot; per §4.3 and §7 the GEMV adapter fails with a
dimension-mismatch condition when the trans-dependent length precondition
is violated (the in-repo test test_matrix_vector_mul_panic attests the
panic), and otherwise computes y = alpha * op(A) * x + beta * y through
the CBLAS kernel. -/
def d_gemv {α : Type} [CommRing α] (trans : Bool) (alpha : α) (a : Matrix α)
    (x : List α) (beta : α) (y : List α) : Option (List α) :=
  if (if !trans then a.cols = x.length ∧ a.rows = y.length
      else a.rows = x.length ∧ a.cols = y.length) then
    some (cblas_dgemv trans a.rows a.cols alpha a.data a.cols x beta y)
  else none

/-- Translation of MatrixVectorOps mul_vec (ops.rs): GEMV with alpha = 1,
beta = 0 into a zero vector of length rows. -/
def Matrix.mul_vec {α : Type} [CommRing α] (m : Matrix α) (v : List α) : Option (List α) :=
  d_gemv false 1 m v 0 (zero m.rows)

/-- Translation of MatrixVectorOps transp_mul_vec (ops.rs): transposed GEMV
with alpha = 1, beta = 0 into a zero vector of length cols. -/
def Matrix.transp_mul_vec {α : Type} [CommRing α] (m : Matrix α) (v : List α) :
    Option (List α) :=
  d_gemv true 1 m v 0 (zero m.cols)

/-- Modelled from the spec: d_gemm of ops_inplace.rs (not in this snapshot)
is the GEMM adapter; per §4.5 and §6 it computes
c = alpha * op(a) * op(b) + beta * c and surfaces a dimension error (none)
when the effective shapes do not match. -/
def d_gemm {α : Type} [CommRing α] (alpha : α) (a b : Matrix α) (beta : α) (c : Matrix α)
    (lhs_t rhs_t : Bool) : Option (Matrix α) :=
  if (if lhs_t then a.rows else a.cols) = (if rhs_t then b.cols else b.rows) ∧
     c.rows = (if lhs_t then a.cols else a.rows) ∧
     c.cols = (if rhs_t then b.rows else b.cols) then
    some ⟨c.rows, c.cols, (List.range (c.rows * c.cols)).map (fun k =>
      alpha * (∑ l ∈ Finset.range (if lhs_t then a.rows else a.cols),
        a.opEntry lhs_t (k / c.cols) l * b.opEntry rhs_t l (k % c.cols)) +
      beta * c.entry (k / c.cols) (k % c.cols))⟩
  else none

/-- Translation of MatrixMatrixOps mul (ops.rs): result shape from the
transpose flags, zero-filled, then GEMM with alpha = 1 and beta = 0. -/
def Matrix.mul {α : Type} [CommRing α] (m rhs : Matrix α) (lhs_t rhs_t : Bool) :
    Option (Matrix α) :=
  d_gemm 1 m rhs 0
    (Matrix.fill 0 (if lhs_t then m.cols else m.rows) (if rhs_t then rhs.rows else rhs.cols))
    lhs_t rhs_t

/-- Shared loop of add_row and sub_row (ops.rs): for every row index, apply
the in-place vector operation to that row's slice of the buffer, the
failure of the in-place operation propagating out of the loop. -/
def Matrix.rowFold {α : Type} (f : α → α → α) (m : Matrix α) (rhs : List α) :
    Option (Matrix α) :=
  (List.range m.rows).foldlM
    (fun acc i => (izipWith f (acc.rowSlice i) rhs).map (fun r => acc.setRow i r)) m

/-- Translation of MatrixVectorOps add_row (ops.rs): clone the matrix, then
iadd rhs into every row's slice. -/
def Matrix.add_row {α : Type} [Add α] (m : Matrix α) (rhs : List α) : Option (Matrix α) :=
  Matrix.rowFold (fun x y => x + y) m rhs

/-- Translation of MatrixVectorOps sub_row (ops.rs): clone the matrix, then
isub rhs from every row's slice. -/
def Matrix.sub_row {α : Type} [Sub α] (m : Matrix α) (rhs : List α) : Option (Matrix α) :=
  Matrix.rowFold (fun x y => x - y) m rhs

/-- Sign-aware idealised floating-point value for the reciprocal edge case:
nan, a signed infinity, or a signed finite value of exact magnitude mag
(sgn true means negative; fin s 0 is the signed zero). Rounding is
idealised away, which the checked properties do not depend on. -/
inductive Fl where
  | nan : Fl
  | inf (sgn : Bool) : Fl
  | fin (sgn : Bool) (mag : ℚ) : Fl
deriving DecidableEq

/-- IEEE-754 division on Fl: nan propagates, inf/inf and 0/0 are nan, a
nonzero finite value divided by zero is a signed infinity, a finite value
divided by an infinity is a signed zero, and signs always combine by xor. -/
def Fl.fdiv : Fl → Fl → Fl
  | .nan, _ => .nan
  | _, .nan => .nan
  | .inf _, .inf _ => .nan
  | .inf s, .fin t _ => .inf (xor s t)
  | .fin s _, .inf t => .fin (xor s t) 0
  | .fin s m, .fin t n =>
      if n = 0 then (if m = 0 then .nan else .inf (xor s t))
      else .fin (xor s t) (m / n)

instance : One Fl := ⟨Fl.fin false 1⟩

instance : Div Fl := ⟨Fl.fdiv⟩


/- Helper lemmas about the dot product and buffer indexing. -/

theorem dot_eq_sum_min {α : Type} [CommRing α] (a b : List α) :
    dot a b = ∑ j ∈ Finset.range (min a.length b.length), a.getD j 0 * b.getD j 0 := by
  induction a generalizing b with
  | nil => simp [dot]
  | cons x xs ih =>
    cases b with
    | nil => simp [dot]
    | cons y ys =>
      have h := ih ys
      simp only [dot, List.zipWith_cons_cons, List.sum_cons] at h ⊢
      rw [h, List.length_cons, List.length_cons, Nat.succ_min_succ, Finset.sum_range_succ']
      simp [add_comm]

theorem dot_eq_sum {α : Type} [CommRing α] (a b : List α) (n : Nat)
    (h : min a.length b.length ≤ n) :
    dot a b = ∑ j ∈ Finset.range n, a.getD j 0 * b.getD j 0 := by
  rw [dot_eq_sum_min]
  refine Finset.sum_subset (Finset.range_subset.mpr h) ?_
  intro j hj hnot
  simp only [Finset.mem_range] at hj hnot
  rcases Nat.le_total a.length b.length with hab | hab
  · rw [List.getD_eq_default a 0 (by omega), zero_mul]
  · rw [List.getD_eq_default b 0 (by omega), mul_zero]

theorem dot_slice_eq_sum {α : Type} [CommRing α] (data x : List α) (o c : Nat)
    (hx : x.length = c) :
    dot ((data.drop o).take c) x = ∑ j ∈ Finset.range c, data.getD (o + j) 0 * x.getD j 0 := by
  rw [dot_eq_sum _ _ c (by simp [hx])]
  refine Finset.sum_congr rfl ?_
  intro j hj
  simp only [Finset.mem_range] at hj
  congr 1
  rw [List.getD_eq_getElem?_getD, List.getD_eq_getElem?_getD, List.getElem?_take,
    if_pos hj, List.getElem?_drop]

theorem dot_col_eq_sum {α : Type} [CommRing α] (data x : List α) (lda j m : Nat)
    (hx : x.length = m) :
    dot ((List.range m).map (fun i => data.getD (i * lda + j) 0)) x
      = ∑ i ∈ Finset.range m, data.getD (i * lda + j) 0 * x.getD i 0 := by
  rw [dot_eq_sum _ _ m (by simp [hx])]
  refine Finset.sum_congr rfl ?_
  intro i hi
  simp only [Finset.mem_range] at hi
  congr 1
  rw [List.getD_eq_getElem?_getD, List.getElem?_map, List.getElem?_range hi]
  rfl

/-- C2: for every pair of vectors of any lengths, each allocating
vector-vector operation (add, sub, elementwise mul, div) returns a vector
of length min of the operand lengths whose element at every in-range index
combines the operands elementwise with the respective operator — the zip
semantics, truncating to the shorter operand, with no error on a length
mismatch. -/
theorem vecvec_zip_spec {α : Type} [Add α] [Sub α] [Mul α] [Div α] (a b : List α) :
    ((VectorVectorOps.add a b).length = min a.length b.length ∧
     (VectorVectorOps.sub a b).length = min a.length b.length ∧
     (VectorVectorOps.mul a b).length = min a.length b.length ∧
     (VectorVectorOps.div a b).length = min a.length b.length) ∧
    ∀ (i : Nat) (h1 : i < a.length) (h2 : i < b.length),
      (VectorVectorOps.add a b)[i]? = some (a[i] + b[i]) ∧
      (VectorVectorOps.sub a b)[i]? = some (a[i] - b[i]) ∧
      (VectorVectorOps.mul a b)[i]? = some (a[i] * b[i]) ∧
      (VectorVectorOps.div a b)[i]? = some (a[i] / b[i]) := by
  constructor
  · exact ⟨by simp [VectorVectorOps.add], by simp [VectorVectorOps.sub],
      by simp [VectorVectorOps.mul], by simp [VectorVectorOps.div]⟩
  · intro i h1 h2
    have hadd : i < (VectorVectorOps.add a b).length := by
      simp [VectorVectorOps.add]; omega
    have hsub : i < (VectorVectorOps.sub a b).length := by
      simp [VectorVectorOps.sub]; omega
    have hmul : i < (VectorVectorOps.mul a b).length := by
      simp [VectorVectorOps.mul]; omega
    have hdiv : i < (VectorVectorOps.div a b).length := by
      simp [VectorVectorOps.div]; omega
    refine ⟨?_, ?_, ?_, ?_⟩
    · rw [List.getElem?_eq_getElem hadd]
      simp [VectorVectorOps.add, List.getElem_zipWith]
    · rw [List.getElem?_eq_getElem hsub]
      simp [VectorVectorOps.sub, List.getElem_zipWith]
    · rw [List.getElem?_eq_getElem hmul]
      simp [VectorVectorOps.mul, List.getElem_zipWith]
    · rw [List.getElem?_eq_getElem hdiv]
      simp [VectorVectorOps.div, List.getElem_zipWith]

/-- Witness for C2 at a concrete mismatched-length input over the integers. -/
theorem vecvec_zip_spec_witness :
    (VectorVectorOps.add [(1 : ℤ), 2, 5] [10, 20]).length = min 3 2 ∧
    (VectorVectorOps.add [(1 : ℤ), 2, 5] [10, 20])[1]? = some ((2 : ℤ) + 20) ∧
    VectorVectorOps.add [(1 : ℤ), 2, 5] [10, 20] = [11, 22] :=
  ⟨(vecvec_zip_spec [(1 : ℤ), 2, 5] [10, 20]).1.1, by
    have h := (vecvec_zip_spec [(1 : ℤ), 2, 5] [10, 20]).2 1 (by decide) (by decide)
    rw [h.1]; decide, by decide⟩

/-- C3: mul_vec, transp_mul_vec and mul_dgemv fail (none — the panic of the
source) exactly when the documented trans-dependent length precondition is
violated; they never silently compute a result in that case. -/
theorem dim_mismatch_fails {α : Type} [CommRing α] (m : Matrix α) (v : List α) :
    (m.mul_vec v = none ↔ v.length ≠ m.cols) ∧
    (m.transp_mul_vec v = none ↔ v.length ≠ m.rows) ∧
    ∀ (trans : Bool) (alpha : α) (x : List α) (beta : α) (y : List α),
      m.mul_dgemv trans alpha x beta y = none ↔
        ¬ (if trans then m.rows = x.length ∧ m.cols = y.length
           else m.cols = x.length ∧ m.rows = y.length) := by
  refine ⟨?_, ?_, ?_⟩
  · by_cases h : m.cols = v.length <;>
      simp [Matrix.mul_vec, d_gemv, zero, h, eq_comm]
  · by_cases h : m.rows = v.length <;>
      simp [Matrix.transp_mul_vec, d_gemv, zero, h, eq_comm]
  · intro trans alpha x beta y
    cases trans <;>
      by_cases h1 : m.cols = x.length <;> by_cases h2 : m.rows = y.length <;>
      by_cases h3 : m.rows = x.length <;> by_cases h4 : m.cols = y.length <;>
      simp [Matrix.mul_dgemv, h1, h2, h3, h4]

/-- Witness for C3: a 2 x 3 integer matrix with a length-2 vector fails. -/
theorem dim_mismatch_fails_witness :
    (Matrix.mk 2 3 [(1 : ℤ), 2, 3, 4, 2, 5]).mul_vec [2, 6] = none ∧
    ([(2 : ℤ), 6].length ≠ (Matrix.mk 2 3 [(1 : ℤ), 2, 3, 4, 2, 5]).cols) :=
  ⟨(dim_mismatch_fails (Matrix.mk 2 3 [(1 : ℤ), 2, 3, 4, 2, 5]) [2, 6]).1.mpr
    (by decide), by decide⟩

/-- C4: every allocating elementwise operation equals clone-then-in-place:
under the equal-length dimension contract the allocating binary vector ops
produce exactly what the in-place iadd/isub/imul produce on a clone, and
the sigmoid family, recip, and the elementwise matrix add/sub agree with
their in-place counterparts on a clone unconditionally, mirroring the
clone-then-mutate pattern of the source. -/
theorem alloc_eq_inplace {α : Type} [CommRing α] [Div α] (fexp : α → α) :
    (∀ a b : List α, a.length = b.length →
      iadd a b = some (VectorVectorOps.add a b) ∧
      isub a b = some (VectorVectorOps.sub a b) ∧
      imul a b = some (VectorVectorOps.mul a b)) ∧
    (∀ a : List α,
      Vec.sigmoid fexp a = isigmoid fexp a ∧
      Vec.sigmoid_derivative fexp a = isigmoid_derivative fexp a ∧
      Vec.recip a = irecip a) ∧
    (∀ m rhs : Matrix α,
      Matrix.add m rhs = Matrix.iadd m rhs ∧
      Matrix.sub m rhs = Matrix.isub m rhs) ∧
    (∀ m : Matrix α,
      Matrix.sigmoid fexp m = Matrix.isigmoid fexp m ∧
      Matrix.sigmoid_derivative fexp m = Matrix.isigmoid_derivative fexp m ∧
      Matrix.recip m = Matrix.irecip m) := by
  refine ⟨?_, fun a => ⟨rfl, rfl, rfl⟩, fun m rhs => ⟨rfl, rfl⟩, fun m => ⟨rfl, rfl, rfl⟩⟩
  intro a b h
  exact ⟨by simp [iadd, izipWith, h, VectorVectorOps.add],
    by simp [isub, izipWith, h, VectorVectorOps.sub],
    by simp [imul, izipWith, h, VectorVectorOps.mul]⟩

/-- Witness for C4 at concrete equal-length integer vectors. -/
theorem alloc_eq_inplace_witness :
    ([(1 : ℤ), 2].length = [(3 : ℤ), 4].length) ∧
    iadd [(1 : ℤ), 2] [3, 4] = some (VectorVectorOps.add [(1 : ℤ), 2] [3, 4]) ∧
    iadd [(1 : ℤ), 2] [3, 4] = some [4, 6] :=
  ⟨by decide,
    ((alloc_eq_inplace (fun x : ℤ => x)).1 [(1 : ℤ), 2] [3, 4] (by decide)).1,
    by decide⟩


/-- C1: under the trans-dependent dimension contract, mul_dgemv succeeds
and returns a vector of length y.length whose i-th element is
alpha * (op(M) * x)_i + beta * y_i, where op is the identity when trans is
false and the transpose when trans is true. -/
theorem mul_dgemv_spec {α : Type} [CommRing α] (m : Matrix α) (trans : Bool) (alpha : α)
    (x : List α) (beta : α) (y : List α)
    (hc : if trans then m.rows = x.length ∧ m.cols = y.length
          else m.cols = x.length ∧ m.rows = y.length) :
    ∃ r, m.mul_dgemv trans alpha x beta y = some r ∧ r.length = y.length ∧
      ∀ i, i < y.length →
        r[i]? = some (alpha * (∑ j ∈ Finset.range (if trans then m.rows else m.cols),
          (if trans then m.entry j i else m.entry i j) * x.getD j 0) + beta * y.getD i 0) := by
  cases trans with
  | false =>
    simp only [Bool.false_eq_true, if_false] at hc ⊢
    obtain ⟨hx, hy⟩ := hc
    refine ⟨cblas_dgemv false m.rows m.cols alpha m.data m.cols x beta y, ?_, ?_, ?_⟩
    · rw [Matrix.mul_dgemv, if_neg (by simp [hx, hy])]
    · simp [cblas_dgemv, hy]
    · intro i hi
      rw [cblas_dgemv]
      simp only [Bool.not_false, if_true]
      rw [List.getElem?_map, List.getElem?_range (by omega : i < m.rows)]
      simp only [Option.map_some']
      congr 1
      rw [dot_slice_eq_sum m.data x (i * m.cols) m.cols hx.symm]
      rfl
  | true =>
    simp only [eq_self_iff_true, if_true] at hc ⊢
    obtain ⟨hx, hy⟩ := hc
    refine ⟨cblas_dgemv true m.rows m.cols alpha m.data m.cols x beta y, ?_, ?_, ?_⟩
    · rw [Matrix.mul_dgemv, if_neg (by simp [hx, hy])]
    · simp [cblas_dgemv, hy]
    · intro i hi
      rw [cblas_dgemv]
      simp only [Bool.not_true, Bool.false_eq_true, if_false]
      rw [List.getElem?_map, List.getElem?_range (by omega : i < m.cols)]
      simp only [Option.map_some']
      congr 1
      rw [dot_col_eq_sum m.data x m.cols i m.rows hx.symm]
      rfl

/-- Witness for C1: the two worked examples of the spec, over the exact
integers they consist of. -/
theorem mul_dgemv_spec_witness :
    (if false then (Matrix.mk 2 3 [(1 : ℤ), 2, 3, 4, 2, 5]).rows = 3 ∧
        (Matrix.mk 2 3 [(1 : ℤ), 2, 3, 4, 2, 5]).cols = 2
     else (Matrix.mk 2 3 [(1 : ℤ), 2, 3, 4, 2, 5]).cols = 3 ∧
        (Matrix.mk 2 3 [(1 : ℤ), 2, 3, 4, 2, 5]).rows = 2) ∧
    (∃ r, (Matrix.mk 2 3 [(1 : ℤ), 2, 3, 4, 2, 5]).mul_dgemv false 2 [2, 6, 3] (-3) [7, 2]
        = some r ∧ r.length = [(7 : ℤ), 2].length ∧
      ∀ i, i < [(7 : ℤ), 2].length →
        r[i]? = some (2 * (∑ j ∈ Finset.range
            (if false then (Matrix.mk 2 3 [(1 : ℤ), 2, 3, 4, 2, 5]).rows
             else (Matrix.mk 2 3 [(1 : ℤ), 2, 3, 4, 2, 5]).cols),
          (if false then (Matrix.mk 2 3 [(1 : ℤ), 2, 3, 4, 2, 5]).entry j i
           else (Matrix.mk 2 3 [(1 : ℤ), 2, 3, 4, 2, 5]).entry i j) *
            [(2 : ℤ), 6, 3].getD j 0) + (-3) * [(7 : ℤ), 2].getD i 0)) ∧
    (Matrix.mk 2 3 [(1 : ℤ), 2, 3, 4, 2, 5]).mul_dgemv false 2 [2, 6, 3] (-3) [7, 2]
      = some [25, 64] ∧
    (Matrix.mk 2 3 [(1 : ℤ), 2, 3, 4, 2, 5]).mul_dgemv true 2 [8, 3] (-3) [1, -4, 9]
      = some [37, 56, 51] :=
  ⟨by decide,
    mul_dgemv_spec (Matrix.mk 2 3 [(1 : ℤ), 2, 3, 4, 2, 5]) false 2 [2, 6, 3] (-3) [7, 2]
      (by decide),
    by decide, by decide⟩

/-- C5: when the effective inner dimensions match, mul succeeds and returns
a matrix of shape (lhs_t ? cols : rows) x (rhs_t ? rows : cols) whose
entries are the product of op(A) and op(B) — GEMM with alpha = 1 and
beta = 0 into a zero-filled result. -/
theorem matmul_spec {α : Type} [CommRing α] (a b : Matrix α) (lhs_t rhs_t : Bool)
    (h : (if lhs_t then a.rows else a.cols) = (if rhs_t then b.cols else b.rows)) :
    ∃ c, a.mul b lhs_t rhs_t = some c ∧
      c.rows = (if lhs_t then a.cols else a.rows) ∧
      c.cols = (if rhs_t then b.rows else b.cols) ∧
      ∀ i j, i < c.rows → j < c.cols →
        c.entry i j = ∑ l ∈ Finset.range (if lhs_t then a.rows else a.cols),
          a.opEntry lhs_t i l * b.opEntry rhs_t l j := by
  have key : a.mul b lhs_t rhs_t = some (Matrix.mk
      (if lhs_t then a.cols else a.rows) (if rhs_t then b.rows else b.cols)
      ((List.range ((if lhs_t then a.cols else a.rows) *
          (if rhs_t then b.rows else b.cols))).map
        (fun k =>
          (1 : α) * (∑ l ∈ Finset.range (if lhs_t then a.rows else a.cols),
            a.opEntry lhs_t (k / (if rhs_t then b.rows else b.cols)) l *
              b.opEntry rhs_t l (k % (if rhs_t then b.rows else b.cols))) +
          (0 : α) * (Matrix.fill (0 : α) (if lhs_t then a.cols else a.rows)
              (if rhs_t then b.rows else b.cols)).entry
            (k / (if rhs_t then b.rows else b.cols))
            (k % (if rhs_t then b.rows else b.cols))))) := by
    rw [Matrix.mul, d_gemm, if_pos]
    · rfl
    · exact ⟨h, rfl, rfl⟩
  refine ⟨_, key, rfl, rfl, ?_⟩
  · intro i j hi2 hj2
    have hi : i < (if lhs_t then a.cols else a.rows) := hi2
    have hj : j < (if rhs_t then b.rows else b.cols) := hj2
    have hC : 0 < (if rhs_t then b.rows else b.cols) := by omega
    have hidx : i * (if rhs_t then b.rows else b.cols) + j
        < (if lhs_t then a.cols else a.rows) * (if rhs_t then b.rows else b.cols) := by
      have h1 : i * (if rhs_t then b.rows else b.cols) + j
          < (i + 1) * (if rhs_t then b.rows else b.cols) := by
        rw [Nat.succ_mul]; omega
      have h2 : (i + 1) * (if rhs_t then b.rows else b.cols)
          ≤ (if lhs_t then a.cols else a.rows) * (if rhs_t then b.rows else b.cols) :=
        Nat.mul_le_mul_right _ (by omega)
      omega
    have hdiv : (i * (if rhs_t then b.rows else b.cols) + j)
        / (if rhs_t then b.rows else b.cols) = i := by
      rw [Nat.add_comm, Nat.add_mul_div_right _ _ hC, Nat.div_eq_of_lt hj, Nat.zero_add]
    have hmod : (i * (if rhs_t then b.rows else b.cols) + j)
        % (if rhs_t then b.rows else b.cols) = j := by
      rw [Nat.add_comm, Nat.add_mul_mod_self_right, Nat.mod_eq_of_lt hj]
    show ((List.range ((if lhs_t then a.cols else a.rows) *
        (if rhs_t then b.rows else b.cols))).map _).getD
      (i * (if rhs_t then b.rows else b.cols) + j) 0 = _
    rw [List.getD_eq_getElem?_getD, List.getElem?_map, List.getElem?_range hidx]
    simp only [Option.map_some', Option.getD_some]
    rw [hdiv, hmod]
    simp [Matrix.entry, Matrix.fill]

/-- Witness for C5: the worked example of the spec over the integers. -/
theorem matmul_spec_witness :
    ((if false then (Matrix.mk 2 3 [(1 : ℤ), 2, 3, 4, 2, 5]).rows
      else (Matrix.mk 2 3 [(1 : ℤ), 2, 3, 4, 2, 5]).cols) =
     (if false then (Matrix.mk 3 2 [(3 : ℤ), 1, 2, 3, 1, 2]).cols
      else (Matrix.mk 3 2 [(3 : ℤ), 1, 2, 3, 1, 2]).rows)) ∧
    (∃ c, (Matrix.mk 2 3 [(1 : ℤ), 2, 3, 4, 2, 5]).mul
        (Matrix.mk 3 2 [(3 : ℤ), 1, 2, 3, 1, 2]) false false = some c ∧
      c.rows = (if false then (Matrix.mk 2 3 [(1 : ℤ), 2, 3, 4, 2, 5]).cols
        else (Matrix.mk 2 3 [(1 : ℤ), 2, 3, 4, 2, 5]).rows) ∧
      c.cols = (if false then (Matrix.mk 3 2 [(3 : ℤ), 1, 2, 3, 1, 2]).rows
        else (Matrix.mk 3 2 [(3 : ℤ), 1, 2, 3, 1, 2]).cols) ∧
      ∀ i j, i < c.rows → j < c.cols →
        c.entry i j = ∑ l ∈ Finset.range
            (if false then (Matrix.mk 2 3 [(1 : ℤ), 2, 3, 4, 2, 5]).rows
             else (Matrix.mk 2 3 [(1 : ℤ), 2, 3, 4, 2, 5]).cols),
          (Matrix.mk 2 3 [(1 : ℤ), 2, 3, 4, 2, 5]).opEntry false i l *
            (Matrix.mk 3 2 [(3 : ℤ), 1, 2, 3, 1, 2]).opEntry false l j) ∧
    (Matrix.mk 2 3 [(1 : ℤ), 2, 3, 4, 2, 5]).mul (Matrix.mk 3 2 [(3 : ℤ), 1, 2, 3, 1, 2])
      false false = some (Matrix.mk 2 2 [10, 13, 21, 20]) :=
  ⟨by decide,
    matmul_spec (Matrix.mk 2 3 [(1 : ℤ), 2, 3, 4, 2, 5])
      (Matrix.mk 3 2 [(3 : ℤ), 1, 2, 3, 1, 2]) false false (by decide),
    by decide⟩

/-- C8 as stated fails on the integer element kinds the macro instantiates:
over u8 (wrapping release-mode arithmetic, modelled by Fin 256; a checked
build panics at the same input) mul_scalar then div_scalar by the nonzero
scalar 2 does not return the original matrix [[200]], because the product
400 wraps to 144 and 144 / 2 = 72. -/
theorem scalar_roundtrip_u8_cex :
    ((2 : Fin 256) ≠ 0) ∧
    ((Matrix.mk 1 1 [(200 : Fin 256)]).mul_scalar 2).div_scalar 2
      ≠ Matrix.mk 1 1 [(200 : Fin 256)] :=
  ⟨by decide, by decide⟩

/-- C8 amended: the add/sub scalar round-trip is the identity and, for
s ≠ 0, so is the mul/div scalar round-trip, for float element kinds
(idealised as exact field arithmetic); for the integer kinds (wrapping
arithmetic, u8 modelled by Fin 256) the add/sub round-trip still always
holds, while the mul/div round-trip holds only when no elementwise
product overflows. -/
theorem scalar_roundtrip_spec {α : Type} [Field α] (m : Matrix α) (s : α) :
    ((m.add_scalar s).sub_scalar s = m ∧
     (s ≠ 0 → (m.mul_scalar s).div_scalar s = m)) ∧
    ∀ (n : Matrix (Fin 256)) (t : Fin 256),
      (n.add_scalar t).sub_scalar t = n ∧
      (t ≠ 0 → (∀ x ∈ n.data, x.val * t.val < 256) →
        (n.mul_scalar t).div_scalar t = n) := by
  refine ⟨⟨?_, ?_⟩, ?_⟩
  · obtain ⟨r, c, d⟩ := m
    simp [Matrix.add_scalar, Matrix.sub_scalar, Matrix.from_vec, List.map_map,
      Function.comp_def]
  · intro hs
    obtain ⟨r, c, d⟩ := m
    simp [Matrix.mul_scalar, Matrix.div_scalar, Matrix.from_vec, List.map_map,
      Function.comp_def, mul_div_cancel_right₀, hs]
  · intro n t
    constructor
    · obtain ⟨r, c, d⟩ := n
      simp [Matrix.add_scalar, Matrix.sub_scalar, Matrix.from_vec, List.map_map,
        Function.comp_def]
    · intro ht hover
      obtain ⟨r, c, d⟩ := n
      simp only [Matrix.mul_scalar, Matrix.div_scalar, Matrix.from_vec, List.map_map,
        Function.comp_def, Matrix.mk.injEq, true_and]
      have hmap : d.map (fun x => x * t / t) = d.map id := by
        refine List.map_congr_left ?_
        intro x hx
        have hxv : x.val * t.val < 256 := hover x hx
        have htv : t.val ≠ 0 := by
          intro hc
          exact ht (Fin.ext hc)
        apply Fin.ext
        show (x * t).val / t.val = x.val
        have hvm : (x * t).val = x.val * t.val % 256 := rfl
        rw [hvm, Nat.mod_eq_of_lt hxv, Nat.mul_div_cancel _ (Nat.pos_of_ne_zero htv)]
      rw [hmap, List.map_id]

/-- Witness for C8: the amended round-trips at concrete inputs. -/
theorem scalar_roundtrip_spec_witness :
    ((2 : ℚ) ≠ 0) ∧
    ((Matrix.mk 1 1 [(3 : ℚ)]).mul_scalar 2).div_scalar 2 = Matrix.mk 1 1 [(3 : ℚ)] ∧
    ((Matrix.mk 1 1 [(200 : Fin 256)]).add_scalar 2).sub_scalar 2
      = Matrix.mk 1 1 [(200 : Fin 256)] :=
  ⟨two_ne_zero,
    (scalar_roundtrip_spec (Matrix.mk 1 1 [(3 : ℚ)]) 2).1.2 two_ne_zero,
    by decide⟩

/-- C9: recip is total on the sign-aware float model (the embedding has no
panic path) and computes 1 / x: a signed zero yields the signed infinity
of the same sign per the IEEE division rules, a nonzero finite value
yields its exact reciprocal with unchanged sign, and the vector and matrix
recip are the elementwise lifts through the clone-then-in-place pattern. -/
theorem recip_float_spec (s : Bool) (q : ℚ) :
    recip (Fl.fin s 0) = Fl.inf s ∧
    (q ≠ 0 → recip (Fl.fin s q) = Fl.fin s (1 / q)) ∧
    (∀ v : List Fl, Vec.recip v = v.map recip) ∧
    ∀ m : Matrix Fl, Matrix.recip m = Matrix.mk m.rows m.cols (m.data.map recip) := by
  refine ⟨?_, ?_, fun v => rfl, fun m => rfl⟩
  · show Fl.fdiv (Fl.fin false 1) (Fl.fin s 0) = Fl.inf s
    simp [Fl.fdiv, one_ne_zero]
  · intro hq
    show Fl.fdiv (Fl.fin false 1) (Fl.fin s q) = Fl.fin s (1 / q)
    simp [Fl.fdiv, hq]

/-- Witness for C9: the reciprocal at 2, at +0 and at -0. -/
theorem recip_float_spec_witness :
    ((2 : ℚ) ≠ 0) ∧
    recip (Fl.fin false (2 : ℚ)) = Fl.fin false (1 / 2) ∧
    recip (Fl.fin true (0 : ℚ)) = Fl.inf true ∧
    recip (Fl.fin false (0 : ℚ)) = Fl.inf false :=
  ⟨two_ne_zero, (recip_float_spec false 2).2.1 two_ne_zero,
    (recip_float_spec true 0).1, (recip_float_spec false 0).1⟩


/- Helper lemmas for the run-length grouping. -/

theorem ungroup_append {α : Type} (r t : List (α × Nat)) :
    ungroup (r ++ t) = ungroup r ++ ungroup t := by
  simp [ungroup]

theorem ungroup_singleton {α : Type} (a : α) (n : Nat) :
    ungroup [(a, n)] = List.replicate n a := by
  simp [ungroup]

theorem groupStep_nil {α : Type} [DecidableEq α] (val : α) :
    groupStep ([] : List (α × Nat)) val = [(val, 1)] := by
  simp [groupStep]

theorem groupStep_concat {α : Type} [DecidableEq α] (t : List (α × Nat)) (x : α × Nat)
    (val : α) :
    groupStep (t ++ [x]) val =
      if x.1 ≠ val then (t ++ [x]) ++ [(val, 1)] else t ++ [(x.1, x.2 + 1)] := by
  simp [groupStep, List.getLast?_concat, List.dropLast_concat]

theorem ungroup_groupStep {α : Type} [DecidableEq α] (r : List (α × Nat)) (val : α) :
    ungroup (groupStep r val) = ungroup r ++ [val] := by
  rcases List.eq_nil_or_concat r with rfl | ⟨t, x, rfl⟩
  · rw [groupStep_nil, ungroup_singleton]
    simp [ungroup]
  · rw [List.concat_eq_append, groupStep_concat]
    by_cases hx : x.1 = val
    · rw [if_neg (not_not_intro hx), ← hx]
      obtain ⟨xv, xc⟩ := x
      rw [ungroup_append, ungroup_append, ungroup_singleton, ungroup_singleton,
        List.replicate_succ', List.append_assoc]
    · rw [if_pos hx, ungroup_append, ungroup_singleton, List.replicate_one]

theorem pos_groupStep {α : Type} [DecidableEq α] (r : List (α × Nat)) (val : α)
    (h : ∀ p ∈ r, 1 ≤ p.2) : ∀ p ∈ groupStep r val, 1 ≤ p.2 := by
  rcases List.eq_nil_or_concat r with rfl | ⟨t, x, rfl⟩
  · rw [groupStep_nil]
    intro p hp
    rw [List.mem_singleton.mp hp]
  · rw [List.concat_eq_append] at h
    rw [List.concat_eq_append, groupStep_concat]
    by_cases hx : x.1 ≠ val
    · rw [if_pos hx]
      intro p hp
      rcases List.mem_append.mp hp with hp1 | hp1
      · exact h p hp1
      · rw [List.mem_singleton.mp hp1]
    · rw [if_neg hx]
      intro p hp
      rcases List.mem_append.mp hp with hp1 | hp1
      · exact h p (List.mem_append.mpr (Or.inl hp1))
      · rw [List.mem_singleton.mp hp1]
        show 1 ≤ x.2 + 1
        omega

theorem chain_groupStep {α : Type} [DecidableEq α] (r : List (α × Nat)) (val : α)
    (h : List.Chain' (fun p q : α × Nat => p.1 ≠ q.1) r) :
    List.Chain' (fun p q : α × Nat => p.1 ≠ q.1) (groupStep r val) := by
  rcases List.eq_nil_or_concat r with rfl | ⟨t, x, rfl⟩
  · rw [groupStep_nil]
    simp
  · rw [List.concat_eq_append] at h
    rw [List.concat_eq_append, groupStep_concat]
    by_cases hx : x.1 ≠ val
    · rw [if_pos hx]
      refine List.chain'_append.mpr ⟨h, by simp, ?_⟩
      intro p hp q hq
      simp only [List.getLast?_concat, Option.mem_def, Option.some.injEq] at hp
      simp only [List.head?_cons, Option.mem_def, Option.some.injEq] at hq
      rw [← hp, ← hq]
      exact hx
    · rw [if_neg hx]
      have hparts := List.chain'_append.mp h
      refine List.chain'_append.mpr ⟨hparts.1, by simp, ?_⟩
      intro p hp q hq
      simp only [List.head?_cons, Option.mem_def, Option.some.injEq] at hq
      have hlast := hparts.2.2 p hp x (by simp)
      rw [← hq]
      exact hlast

theorem group_fold_ungroup {α : Type} [DecidableEq α] (v : List α) :
    ∀ r : List (α × Nat), ungroup (v.foldl groupStep r) = ungroup r ++ v := by
  induction v with
  | nil => intro r; simp
  | cons a v ih =>
    intro r
    rw [List.foldl_cons, ih (groupStep r a), ungroup_groupStep]
    simp

theorem group_fold_pos {α : Type} [DecidableEq α] (v : List α) :
    ∀ r, (∀ p ∈ r, 1 ≤ p.2) → ∀ p ∈ v.foldl groupStep r, 1 ≤ p.2 := by
  induction v with
  | nil => intro r h; simpa using h
  | cons a v ih =>
    intro r h
    rw [List.foldl_cons]
    exact ih _ (pos_groupStep r a h)

theorem group_fold_chain {α : Type} [DecidableEq α] (v : List α) :
    ∀ r, List.Chain' (fun p q : α × Nat => p.1 ≠ q.1) r →
      List.Chain' (fun p q : α × Nat => p.1 ≠ q.1) (v.foldl groupStep r) := by
  induction v with
  | nil => intro r h; simpa using h
  | cons a v ih =>
    intro r h
    rw [List.foldl_cons]
    exact ih _ (chain_groupStep r a h)

/-- C10: group is a correct run-length encoding: every count is at least 1,
the values of adjacent result pairs are distinct, decoding (repeating each
value by its count, concatenated) reconstructs the input exactly, and the
empty vector groups to the empty vector. -/
theorem group_rle_spec {α : Type} [DecidableEq α] (v : List α) :
    (∀ p ∈ group v, 1 ≤ p.2) ∧
    List.Chain' (fun p q : α × Nat => p.1 ≠ q.1) (group v) ∧
    ungroup (group v) = v ∧
    group ([] : List α) = [] := by
  refine ⟨?_, ?_, ?_, rfl⟩
  · exact group_fold_pos v [] (by simp)
  · exact group_fold_chain v [] (by simp)
  · have h := group_fold_ungroup v []
    simpa [ungroup] using h

/-- Witness for C10: grouping a concrete vector and decoding it back. -/
theorem group_rle_spec_witness :
    group ([1, 1, 2, 7, 7, 9] : List ℕ) = [(1, 2), (2, 1), (7, 2), (9, 1)] ∧
    ungroup (group ([1, 1, 2, 7, 7, 9] : List ℕ)) = [1, 1, 2, 7, 7, 9] ∧
    ∀ p ∈ group ([1, 1, 2, 7, 7, 9] : List ℕ), 1 ≤ p.2 :=
  ⟨by decide, (group_rle_spec [1, 1, 2, 7, 7, 9]).2.2.1,
    (group_rle_spec [1, 1, 2, 7, 7, 9]).1⟩

/- Helper lemmas for the add_row / sub_row loop. -/

theorem flatMap_range_length {α : Type} (g : Nat → List α) (c k : Nat)
    (h : ∀ t, t < k → (g t).length = c) :
    ((List.range k).flatMap g).length = k * c := by
  induction k with
  | zero => simp
  | succ n ih =>
    rw [List.range_succ, List.flatMap_append, List.length_append,
      ih (fun t ht => h t (by omega))]
    simp [h n (by omega), Nat.succ_mul]

theorem flatMap_range_chunk {α : Type} (g : Nat → List α) (c : Nat) :
    ∀ (k i : Nat), i < k → (∀ t, t < k → (g t).length = c) →
      (((List.range k).flatMap g).drop (i * c)).take c = g i := by
  intro k
  induction k with
  | zero => intro i hik _; omega
  | succ n ih =>
    intro i hik h
    rw [List.range_succ, List.flatMap_append]
    rcases Nat.lt_or_ge i n with hin | hin
    · have hlen : ((List.range n).flatMap g).length = n * c :=
        flatMap_range_length g c n (fun t ht => h t (by omega))
      rw [List.drop_append_of_le_length (by rw [hlen]; exact Nat.mul_le_mul_right c (by omega))]
      rw [List.take_append_of_le_length ?_]
      · exact ih i hin (fun t ht => h t (by omega))
      · rw [List.length_drop, hlen]
        have h2 : (i + 1) * c ≤ n * c := Nat.mul_le_mul_right c (by omega)
        rw [Nat.succ_mul] at h2
        omega
    · have hi : i = n := by omega
      subst hi
      have hlen : ((List.range i).flatMap g).length = i * c :=
        flatMap_range_length g c i (fun t ht => h t (by omega))
      rw [← hlen, List.drop_left]
      simp only [List.flatMap_cons, List.flatMap_nil, List.append_nil]
      rw [← h i (Nat.lt_succ_self i), List.take_length]

theorem rowSlice_length {α : Type} (m : Matrix α) (hwf : m.wf) :
    ∀ t, t < m.rows → (m.rowSlice t).length = m.cols := by
  intro t ht
  have h1 : (t + 1) * m.cols ≤ m.rows * m.cols := Nat.mul_le_mul_right _ (by omega)
  rw [Nat.succ_mul] at h1
  rw [Matrix.wf] at hwf
  simp [Matrix.rowSlice, hwf]
  omega

theorem rowFold_aux {α : Type} (f : α → α → α) (m : Matrix α) (v : List α)
    (hwf : m.wf) (hv : v.length = m.cols) :
    ∀ k, k ≤ m.rows →
      (List.range k).foldlM
        (fun acc i => (izipWith f (acc.rowSlice i) v).map (fun r => acc.setRow i r)) m
      = some (Matrix.mk m.rows m.cols
          ((List.range k).flatMap (fun i => List.zipWith f (m.rowSlice i) v)
            ++ m.data.drop (k * m.cols))) := by
  intro k
  induction k with
  | zero =>
    intro _
    simp
  | succ n ih =>
    intro hk
    have hn : n < m.rows := by omega
    have hchunklen : ∀ t, t < n → (List.zipWith f (m.rowSlice t) v).length = m.cols := by
      intro t ht
      rw [List.length_zipWith, rowSlice_length m hwf t (by omega), hv]
      exact min_self _
    have hchunkLen : ((List.range n).flatMap
        (fun i => List.zipWith f (m.rowSlice i) v)).length = n * m.cols :=
      flatMap_range_length _ _ _ hchunklen
    rw [List.range_succ, List.foldlM_append, ih (by omega)]
    have hslice : (Matrix.mk m.rows m.cols
        ((List.range n).flatMap (fun i => List.zipWith f (m.rowSlice i) v)
          ++ m.data.drop (n * m.cols))).rowSlice n = m.rowSlice n := by
      show ((((List.range n).flatMap (fun i => List.zipWith f (m.rowSlice i) v))
          ++ m.data.drop (n * m.cols)).drop (n * m.cols)).take m.cols = _
      nth_rewrite 1 [← hchunkLen]
      rw [List.drop_left]
      rfl
    have hstep : izipWith f ((Matrix.mk m.rows m.cols
        ((List.range n).flatMap (fun i => List.zipWith f (m.rowSlice i) v)
          ++ m.data.drop (n * m.cols))).rowSlice n) v
        = some (List.zipWith f (m.rowSlice n) v) := by
      rw [hslice, izipWith, if_pos (by rw [rowSlice_length m hwf n hn, hv])]
    simp only [List.foldlM_cons, List.foldlM_nil, Option.bind_eq_bind, Option.some_bind,
      hstep, Option.map_some', Option.pure_def]
    congr 1
    rw [Matrix.setRow, Matrix.mk.injEq]
    refine ⟨rfl, rfl, ?_⟩
    dsimp only
    rw [← hchunkLen, List.take_left, List.drop_append, List.drop_drop, hchunkLen,
      List.flatMap_append, Nat.succ_mul]
    simp [Nat.add_comm]

theorem rowFold_eq {α : Type} (f : α → α → α) (m : Matrix α) (v : List α)
    (hwf : m.wf) (hv : v.length = m.cols) :
    Matrix.rowFold f m v = some (Matrix.mk m.rows m.cols
      ((List.range m.rows).flatMap (fun i => List.zipWith f (m.rowSlice i) v))) := by
  rw [Matrix.rowFold, rowFold_aux f m v hwf hv m.rows (le_refl _)]
  congr 1
  rw [Matrix.mk.injEq]
  refine ⟨rfl, rfl, ?_⟩
  rw [Matrix.wf] at hwf
  rw [← hwf, List.drop_length, List.append_nil]

theorem rowFold_none {α : Type} (f : α → α → α) (m : Matrix α) (v : List α)
    (hwf : m.wf) (hv : v.length ≠ m.cols) (hr : 0 < m.rows) :
    Matrix.rowFold f m v = none := by
  obtain ⟨n, hn⟩ : ∃ n, m.rows = n + 1 := ⟨m.rows - 1, by omega⟩
  have hlen : (m.rowSlice 0).length = m.cols := rowSlice_length m hwf 0 hr
  rw [Matrix.rowFold, hn, List.range_succ_eq_map]
  simp [izipWith, hlen, Ne.symm hv]

/-- C6 as stated fails on a zero-row matrix: the per-row loop body never
runs, so add_row on a well-formed 0 x 1 matrix with a length-2 vector
succeeds and returns the empty clone instead of failing, refuting the
universally quantified failure clause of the claim. -/
theorem add_row_zero_rows_cex :
    (Matrix.mk 0 1 ([] : List ℤ)).add_row [5, 7] = some (Matrix.mk 0 1 []) ∧
    ([(5 : ℤ), 7].length ≠ (Matrix.mk 0 1 ([] : List ℤ)).cols) ∧
    ¬ (∀ (m2 : Matrix ℤ) (v : List ℤ), v.length ≠ m2.cols → m2.add_row v = none) := by
  refine ⟨by decide, by decide, ?_⟩
  intro hall
  exact absurd (hall (Matrix.mk 0 1 []) [5, 7] (by decide)) (by decide)

/-- C6 amended: for a well-formed matrix, when v.length = cols both add_row
and sub_row return a new matrix of the same dimensions in which every row i
is M's row i plus (resp. minus) v elementwise; when v.length differs from
cols and the matrix has at least one row, both operations fail (none) — a
zero-row matrix instead returns its clone unchanged, never checking v. -/
theorem add_row_sub_row_spec {α : Type} [CommRing α] (m : Matrix α) (v : List α)
    (hwf : m.wf) :
    (v.length = m.cols →
      (m.add_row v = some (Matrix.mk m.rows m.cols
          ((List.range m.rows).flatMap
            (fun i => List.zipWith (fun x y => x + y) (m.rowSlice i) v))) ∧
       m.sub_row v = some (Matrix.mk m.rows m.cols
          ((List.range m.rows).flatMap
            (fun i => List.zipWith (fun x y => x - y) (m.rowSlice i) v))) ∧
       ∀ i, i < m.rows →
         ((Matrix.mk m.rows m.cols ((List.range m.rows).flatMap
            (fun i => List.zipWith (fun x y => x + y) (m.rowSlice i) v))).rowSlice i
           = List.zipWith (fun x y => x + y) (m.rowSlice i) v ∧
         (Matrix.mk m.rows m.cols ((List.range m.rows).flatMap
            (fun i => List.zipWith (fun x y => x - y) (m.rowSlice i) v))).rowSlice i
           = List.zipWith (fun x y => x - y) (m.rowSlice i) v))) ∧
    (v.length ≠ m.cols → 0 < m.rows → m.add_row v = none ∧ m.sub_row v = none) := by
  constructor
  · intro hv
    have hchunkA : ∀ t, t < m.rows →
        (List.zipWith (fun x y : α => x + y) (m.rowSlice t) v).length = m.cols := by
      intro t ht
      rw [List.length_zipWith, rowSlice_length m hwf t ht, hv]
      exact min_self _
    have hchunkS : ∀ t, t < m.rows →
        (List.zipWith (fun x y : α => x - y) (m.rowSlice t) v).length = m.cols := by
      intro t ht
      rw [List.length_zipWith, rowSlice_length m hwf t ht, hv]
      exact min_self _
    refine ⟨rowFold_eq _ m v hwf hv, rowFold_eq _ m v hwf hv, ?_⟩
    intro i hi
    constructor
    · show ((((List.range m.rows).flatMap
          (fun i => List.zipWith (fun x y : α => x + y) (m.rowSlice i) v)).drop
            (i * m.cols)).take m.cols) = _
      exact flatMap_range_chunk _ m.cols m.rows i hi hchunkA
    · show ((((List.range m.rows).flatMap
          (fun i => List.zipWith (fun x y : α => x - y) (m.rowSlice i) v)).drop
            (i * m.cols)).take m.cols) = _
      exact flatMap_range_chunk _ m.cols m.rows i hi hchunkS
  · intro hv hr
    exact ⟨rowFold_none _ m v hwf hv hr, rowFold_none _ m v hwf hv hr⟩

/-- Witness for C6: the add_row example of the source test suite, with both
the structural description and its concrete value. -/
theorem add_row_sub_row_spec_witness :
    (Matrix.mk 4 2 [(1 : ℤ), 2, 3, 4, 5, 6, 7, 8]).wf ∧
    ([(2 : ℤ), 4].length = (Matrix.mk 4 2 [(1 : ℤ), 2, 3, 4, 5, 6, 7, 8]).cols) ∧
    (Matrix.mk 4 2 [(1 : ℤ), 2, 3, 4, 5, 6, 7, 8]).add_row [2, 4] = some (Matrix.mk 4 2
      ((List.range 4).flatMap (fun i => List.zipWith (fun x y => x + y)
        ((Matrix.mk 4 2 [(1 : ℤ), 2, 3, 4, 5, 6, 7, 8]).rowSlice i) [2, 4]))) ∧
    (Matrix.mk 4 2 [(1 : ℤ), 2, 3, 4, 5, 6, 7, 8]).add_row [2, 4]
      = some (Matrix.mk 4 2 [3, 6, 5, 8, 7, 10, 9, 12]) :=
  ⟨rfl, by decide,
    ((add_row_sub_row_spec (Matrix.mk 4 2 [(1 : ℤ), 2, 3, 4, 5, 6, 7, 8]) [2, 4]
        rfl).1 (by decide)).1,
    by decide⟩

end Rustml
